import Mathlib

/-
Verification of the slotted-page storage engine.

The buffer of a page is modelled as a `List Nat` of byte values; 16-bit
little-endian quantities are written with `le16` and read back with `d16`,
which mirror Rust `u16::to_le_bytes` / `u16::from_le_bytes` (the `as u16`
cast is the `% 65536` built into `le16`).  Slice assignments
(`buffer[a..b].copy_from_slice(..)`) become `writeRange`, and slice reads
become `byteSlice`.  Fallible operations return `Option`: a `none` models a
panic of the Rust code (index out of bounds, `copy_from_slice` length
mismatch, checked `u16` over/underflow in debug builds, `panic!`, or a
failing `unwrap`).  Locking: `Page::read`, `read_metadata` and
`write_metadata` each take the buffer lock once and release it, so their
observable behaviour is the sequential state transformation modelled
here.  `Page::write` is different: it holds the buffer lock (page.rs
line 146, the guard still in use at line 150) while calling
`read_metadata` (line 147), which locks the same non-reentrant
`std::sync::Mutex` again (page.rs line 101) — that second `lock()` never
returns, so `Page::write` never completes on any input; it is modelled by
`pageWrite`, constantly `none`.  The slotted-page append algorithm it
would have run does run to completion in the lock-free duplicate
`Storage::write_page` (lib.rs lines 108-142), modelled by `writePage`.
-/

/-- Little-endian bytes of `n as u16`: models `(n as u16).to_le_bytes()`. -/
def le16 (n : Nat) : List Nat := [n % 256, n / 256 % 256]

/-- Models `u16::from_le_bytes([a, b])`. -/
def d16 (a b : Nat) : Nat := a + 256 * b

/-- The byte slice `b[i..i+n]` (shorter if it runs off the end). -/
def byteSlice (b : List Nat) (i n : Nat) : List Nat := (b.drop i).take n

/-- Models `b[i..i + v.length].copy_from_slice(v)` (meaningful when
`i + v.length ≤ b.length`, which every caller checks). -/
def writeRange (b : List Nat) (i : Nat) (v : List Nat) : List Nat :=
  b.take i ++ v ++ b.drop (i + v.length)

/-- The two field types of `DataField` in `page.rs`.  `Text` carries the
UTF-8 bytes of the Rust `String`; `Integer` carries the `u16` value. -/
inductive DataField
  | Text (s : List Nat)
  | Integer (n : Nat)
deriving DecidableEq, Repr

/-- `DataField::to_int`: the type tag written before each field. -/
def DataField.to_int : DataField → Nat
  | .Integer _ => 1
  | .Text _ => 2

/-- The payload bytes of one field, as pushed onto `data` in `Page::write`:
a text field is a 16-bit length followed by the raw bytes, an integer field
is its 16-bit value. -/
def encPayload : DataField → List Nat
  | .Text s => le16 s.length ++ s
  | .Integer n => le16 n

/-- The type-tag bytes of a field sequence, in field order. -/
def tagBytes : List DataField → List Nat
  | [] => []
  | f :: fs => le16 f.to_int ++ tagBytes fs

/-- The concatenated payload bytes of a field sequence, in field order. -/
def payloadBytes : List DataField → List Nat
  | [] => []
  | f :: fs => encPayload f ++ payloadBytes fs

/-- The `row` vector built by `Page::write` before copying it into the
buffer: 16-bit field count, then the type tags, then the payloads. -/
def encodeRow (fields : List DataField) : List Nat :=
  le16 fields.length ++ tagBytes fields ++ payloadBytes fields

/-- The contribution of one field to the running `data_len` counter of
`Page::write`: 2 tag bytes plus the payload size, with the text byte count
truncated by the `as u16` cast. -/
def fieldLen : DataField → Nat
  | .Integer _ => 4
  | .Text s => 4 + s.length % 65536

/-- Sum of `fieldLen` over a field sequence. -/
def fieldsLen : List DataField → Nat
  | [] => 0
  | f :: fs => fieldLen f + fieldsLen fs

/-- The final value of `data_len` in `Page::write`: 2 bytes of field count
plus the per-field contributions. -/
def rowLen (fields : List DataField) : Nat := 2 + fieldsLen fields

/-- Total `data_len` of a list of tuples. -/
def totalLen : List (List DataField) → Nat
  | [] => 0
  | r :: rs => rowLen r + totalLen rs

/-- Is `b` a UTF-8 continuation byte? -/
def utf8Cont (b : Nat) : Bool := decide (128 ≤ b) && decide (b ≤ 191)

/-- UTF-8 validity checker (RFC 3629 table), with explicit fuel for
termination; models the success condition of `String::from_utf8`. -/
def validUTF8Fuel : Nat → List Nat → Bool
  | _, [] => true
  | 0, _ :: _ => false
  | fuel + 1, b :: rest =>
    if b ≤ 127 then validUTF8Fuel fuel rest
    else if 194 ≤ b ∧ b ≤ 223 then
      match rest with
      | c1 :: r => utf8Cont c1 && validUTF8Fuel fuel r
      | [] => false
    else if b = 224 then
      match rest with
      | c1 :: c2 :: r =>
          (decide (160 ≤ c1) && decide (c1 ≤ 191)) && utf8Cont c2 &&
            validUTF8Fuel fuel r
      | _ => false
    else if (225 ≤ b ∧ b ≤ 236) ∨ b = 238 ∨ b = 239 then
      match rest with
      | c1 :: c2 :: r => utf8Cont c1 && utf8Cont c2 && validUTF8Fuel fuel r
      | _ => false
    else if b = 237 then
      match rest with
      | c1 :: c2 :: r =>
          (decide (128 ≤ c1) && decide (c1 ≤ 159)) && utf8Cont c2 &&
            validUTF8Fuel fuel r
      | _ => false
    else if b = 240 then
      match rest with
      | c1 :: c2 :: c3 :: r =>
          (decide (144 ≤ c1) && decide (c1 ≤ 191)) && utf8Cont c2 &&
            utf8Cont c3 && validUTF8Fuel fuel r
      | _ => false
    else if 241 ≤ b ∧ b ≤ 243 then
      match rest with
      | c1 :: c2 :: c3 :: r =>
          utf8Cont c1 && utf8Cont c2 && utf8Cont c3 && validUTF8Fuel fuel r
      | _ => false
    else if b = 244 then
      match rest with
      | c1 :: c2 :: c3 :: r =>
          (decide (128 ≤ c1) && decide (c1 ≤ 143)) && utf8Cont c2 &&
            utf8Cont c3 && validUTF8Fuel fuel r
      | _ => false
    else false

/-- A byte list is valid UTF-8 (so `String::from_utf8` succeeds on it). -/
def isValidUTF8 (l : List Nat) : Bool := validUTF8Fuel l.length l

/-- Well-formedness of one field as the Rust types guarantee it: an
`Integer` holds a `u16`, a `Text` holds the UTF-8 bytes of a `String`
shorter than 2^16 (so no `as u16` truncation occurs). -/
def WFField : DataField → Bool
  | .Integer n => decide (n < 65536)
  | .Text s => decide (s.length < 65536) && isValidUTF8 s

/-- All fields of a tuple are well formed. -/
def WFRow (fields : List DataField) : Bool := fields.all WFField

/-- `Page::write_metadata` / `Storage::write_metadata`: store id at bytes
0-1, `lower` at 2-3, `higher` at 4-5, each 16-bit little-endian. -/
def writeHeader (b : List Nat) (id lo hi : Nat) : List Nat :=
  writeRange (writeRange (writeRange b 0 (le16 id)) 2 (le16 lo)) 4 (le16 hi)

/-- The `id` header field, as `read_metadata` decodes it. -/
def readId (b : List Nat) : Nat := d16 (b.getD 0 0) (b.getD 1 0)

/-- The `lower` (low-water) header field, as `read_metadata` decodes it. -/
def readLower (b : List Nat) : Nat := d16 (b.getD 2 0) (b.getD 3 0)

/-- The `higher` (high-water) header field, as `read_metadata` decodes it. -/
def readHigher (b : List Nat) : Nat := d16 (b.getD 4 0) (b.getD 5 0)

/-- `Page::new(page_size, buffer)`: adopt an existing buffer verbatim, or
allocate `page_size` zero bytes and initialise the header to
`{id = 0, lower = 6, higher = page_size}`. -/
def pageNew (pageSize : Nat) : Option (List Nat) → List Nat
  | some b => b
  | none => writeHeader (List.replicate pageSize 0) 0 6 pageSize

/-- `Storage::write_page(page, fields)` (lib.rs lines 108-142): the
slotted-page append algorithm on an unsynchronized buffer.  Encode the
row, then: shrink `higher` by `data_len`, copy the row at the new
`higher`, append the new slot entry at `lower`, bump `lower` by 2, and
store the header back.  Every `if` guard models a place the Rust code
panics (checked `u16` arithmetic, slice bounds, `copy_from_slice` length
mismatch); `none` is such a panic.  `Page::write` (page.rs lines 121-157)
builds the same row but deadlocks before it can touch the buffer: see
`pageWrite` below. -/
def writePage (b : List Nat) (fields : List DataField) : Option (List Nat) :=
  let row := encodeRow fields
  let dataLen := rowLen fields
  if dataLen ≤ 65535 then
    if 6 ≤ b.length then
      let lower := readLower b
      let higher := readHigher b
      if dataLen ≤ higher then
        let dataOffset := higher - dataLen
        if dataOffset + dataLen ≤ b.length then
          if row.length = dataLen then
            let b1 := writeRange b dataOffset row
            if lower + 2 ≤ b1.length then
              if lower + 2 ≤ 65535 then
                some (writeHeader (writeRange b1 lower (le16 dataOffset))
                  (readId b) (lower + 2) dataOffset)
              else none
            else none
          else none
        else none
      else none
    else none
  else none

/-- `Page::write(fields)` (page.rs lines 121-157).  The row and
`data_len` are built first (lines 122-145, pure code modelled by
`encodeRow` and `rowLen`); then the method acquires the buffer lock
(line 146) and, still holding that guard, calls `read_metadata`
(line 147), which locks the same non-reentrant `std::sync::Mutex` again
(page.rs line 101).  By the `std` contract that second `lock()` never
returns, so the call never completes and the buffer is never modified,
whatever the input (an oversized `data_len` would already abort during
encoding via a checked-add panic — also a non-return).  `none` models
this guaranteed non-return. -/
def pageWrite (_b : List Nat) (_fields : List DataField) : Option (List Nat) :=
  none

/-- Page states reachable from a fresh page by successful `Page::write`
calls. -/
inductive ReachableByWrites (S : Nat) : List Nat → Prop where
  | init : ReachableByWrites S (pageNew S none)
  | step (b b2 : List Nat) (t : List DataField) : ReachableByWrites S b →
      pageWrite b t = some b2 → ReachableByWrites S b2

/-- The slot-directory scan of `Page::read`: collect the 16-bit offsets
stored at `offset, offset + 2, ...` while `offset ≤ limit`. -/
def readPointers (b : List Nat) (offset limit : Nat) : Option (List Nat) :=
  if _h : offset ≤ limit then
    if offset + 2 ≤ b.length then
      match readPointers b (offset + 2) limit with
      | none => none
      | some rest => some (d16 (b.getD offset 0) (b.getD (offset + 1) 0) :: rest)
    else none
  else some []
termination_by limit + 1 - offset
decreasing_by omega

/-- The tag-collection loop of `Page::read`: read `n` 16-bit type tags
starting at `off`, returning them with the offset past the last one. -/
def readTags (b : List Nat) : Nat → Nat → Option (List Nat × Nat)
  | off, 0 => some ([], off)
  | off, n + 1 =>
    if off + 2 ≤ b.length then
      match readTags b (off + 2) n with
      | none => none
      | some (ts, fin) => some (d16 (b.getD off 0) (b.getD (off + 1) 0) :: ts, fin)
    else none

/-- The payload-decoding loop of `Page::read`: for each collected tag,
decode an integer (tag 1) or a length-prefixed UTF-8 text (tag 2);
any other tag is `panic!("invalid number")`, a byteSlice past the end or
invalid UTF-8 also panics — all modelled by `none`. -/
def decodeFields (b : List Nat) : List Nat → Nat → Option (List DataField × Nat)
  | [], off => some ([], off)
  | t :: ts, off =>
    if t = 1 then
      if off + 2 ≤ b.length then
        match decodeFields b ts (off + 2) with
        | none => none
        | some (fs, fin) =>
            some (DataField.Integer (d16 (b.getD off 0) (b.getD (off + 1) 0)) :: fs, fin)
      else none
    else if t = 2 then
      if off + 2 ≤ b.length then
        let len := d16 (b.getD off 0) (b.getD (off + 1) 0)
        if off + 2 + len ≤ b.length then
          if isValidUTF8 (byteSlice b (off + 2) len) then
            match decodeFields b ts (off + 2 + len) with
            | none => none
            | some (fs, fin) => some (DataField.Text (byteSlice b (off + 2) len) :: fs, fin)
          else none
        else none
      else none
    else none

/-- Decode one tuple whose encoding starts at `ptr`: field count, tags,
then payloads, exactly as the per-pointer body of `Page::read`. -/
def decodeRowAt (b : List Nat) (ptr : Nat) : Option (List DataField) :=
  if ptr + 2 ≤ b.length then
    match readTags b (ptr + 2) (d16 (b.getD ptr 0) (b.getD (ptr + 1) 0)) with
    | none => none
    | some (ts, off) =>
      match decodeFields b ts off with
      | none => none
      | some (fs, _) => some fs
  else none

/-- Decode the tuples for a list of slot pointers, in slot order. -/
def readRows (b : List Nat) : List Nat → Option (List (List DataField))
  | [] => some []
  | p :: ps =>
    match decodeRowAt b p with
    | none => none
    | some r =>
      match readRows b ps with
      | none => none
      | some rs => some (r :: rs)

/-- `Page::read()`: scan the slot directory from offset 6 while
`offset ≤ lower - 2` (the `lower - 2` is checked u16 subtraction), then
decode each pointed-to tuple in slot order. -/
def pageRead (b : List Nat) : Option (List (List DataField)) :=
  if 6 ≤ b.length then
    if 2 ≤ readLower b then
      match readPointers b 6 (readLower b - 2) with
      | none => none
      | some ps => readRows b ps
    else none
  else none

/-- Writing a sequence of tuples by successive applications of the write
algorithm (as realized in the lock-free `Storage::write_page`). -/
def writeAll : List Nat → List (List DataField) → Option (List Nat)
  | b, [] => some b
  | b, t :: ts =>
    match writePage b t with
    | none => none
    | some b2 => writeAll b2 ts

/-- `PAGE_SIZE` of `lib.rs`. -/
def PAGE_SIZE : Nat := 8192

/-- `Storage::default_page`: a zero-filled `PAGE_SIZE` buffer. -/
def defaultPage : List Nat := List.replicate PAGE_SIZE 0

/-- `Storage::create_page`: a fresh page with header
`{id = 1, lower = 6, higher = PAGE_SIZE}`. -/
def createPage : List Nat := writeHeader defaultPage 1 6 PAGE_SIZE

/-- `Storage::insert_data(file_path, fields)`.  The file is modelled by
`Option (List Nat)`: `none` when the path does not exist, `some c` for a
file with byte contents `c`.  `read_exact` reads exactly `PAGE_SIZE` bytes
(failing on a shorter file); `Storage::write_page` is the same algorithm
as the row construction of `Page::write`, run lock-free to completion
(lib.rs lines 108-142), so it is modelled by `writePage`; finally the file is
rewritten from byte 0 with the whole buffer.  The result is the new file
contents, `none` for an I/O error or panic. -/
def insertData (contents : Option (List Nat)) (fields : List DataField) :
    Option (List Nat) :=
  match contents with
  | some c =>
    if PAGE_SIZE ≤ c.length then
      match writePage (c.take PAGE_SIZE) fields with
      | none => none
      | some p => some (p ++ c.drop PAGE_SIZE)
    else none
  | none =>
    match writePage createPage fields with
    | none => none
    | some p => some p

/-- Auxiliary: `getD` through `take`. -/
theorem getD_take {l : List Nat} {n j : Nat} (h : j < n) (d : Nat) :
    (l.take n).getD j d = l.getD j d := by
  induction l generalizing n j with
  | nil => simp
  | cons a t ih =>
    cases n with
    | zero => omega
    | succ m =>
      cases j with
      | zero => simp [List.getD]
      | succ i => simp only [List.take_succ_cons, List.getD_cons_succ]; exact ih (n := m) (j := i) (by omega)

/-- Auxiliary: `getD` through `drop`. -/
theorem getD_drop (l : List Nat) (o j d : Nat) :
    (l.drop o).getD j d = l.getD (o + j) d := by
  induction o generalizing l with
  | zero => simp
  | succ m ih =>
    cases l with
    | nil => simp [List.getD]
    | cons a t =>
      have hmj : m + 1 + j = m + j + 1 := by omega
      rw [List.drop_succ_cons, ih t, hmj, List.getD_cons_succ]

/-- Reading one byte out of a known byteSlice. -/
theorem getD_byteSlice {b v : List Nat} {o n j : Nat}
    (h : byteSlice b o n = v) (hj : j < n) :
    b.getD (o + j) 0 = v.getD j 0 := by
  subst h
  rw [byteSlice, getD_take hj, getD_drop]

theorem length_le16 (n : Nat) : (le16 n).length = 2 := rfl

theorem d16_le16_bytes (n : Nat) :
    d16 ((le16 n).getD 0 0) ((le16 n).getD 1 0) = n % 65536 := by
  show n % 256 + 256 * (n / 256 % 256) = n % 65536
  omega

/-- `le16` only depends on the argument mod 2^16. -/
theorem le16_mod (n : Nat) : le16 (n % 65536) = le16 n := by
  have h1 : n % 65536 % 256 = n % 256 := Nat.mod_mod_of_dvd n (by norm_num)
  have h2 : n % 65536 / 256 % 256 = n / 256 % 256 := by omega
  rw [le16, le16, h1, h2]

/-- Decoding two bytes that hold `le16 x` yields `x % 65536`. -/
theorem read16_at {b : List Nat} {o x : Nat} (h : byteSlice b o 2 = le16 x) :
    d16 (b.getD o 0) (b.getD (o + 1) 0) = x % 65536 := by
  have h0 := getD_byteSlice (j := 0) h (by omega)
  have h1 := getD_byteSlice (j := 1) h (by omega)
  simp only [Nat.add_zero] at h0
  rw [h0, h1, d16_le16_bytes]

theorem length_writeRange {b v : List Nat} {i : Nat} (h : i + v.length ≤ b.length) :
    (writeRange b i v).length = b.length := by
  simp [writeRange]
  omega

theorem take_writeRange {b v : List Nat} {i j : Nat} (h1 : j ≤ i) (h2 : i ≤ b.length) :
    (writeRange b i v).take j = b.take j := by
  rw [writeRange, List.append_assoc, List.take_append_eq_append_take]
  have hlen : (b.take i).length = i := by
    simp
    omega
  rw [hlen]
  have hj0 : j - i = 0 := by omega
  rw [hj0]
  simp only [List.take_zero, List.append_nil]
  rw [List.take_take, Nat.min_eq_left h1]

theorem drop_writeRange {b v : List Nat} {i j : Nat}
    (h1 : i + v.length ≤ j) (h2 : i + v.length ≤ b.length) :
    (writeRange b i v).drop j = b.drop j := by
  rw [writeRange, List.append_assoc, List.drop_append_eq_append_drop]
  have hlen : (b.take i).length = i := by
    simp
    omega
  have hnil : (b.take i).drop j = [] := by
    apply List.drop_eq_nil_of_le
    simp
    omega
  rw [hlen, hnil, List.nil_append, List.drop_append_eq_append_drop]
  have hvnil : v.drop (j - i) = [] := by
    apply List.drop_eq_nil_of_le
    omega
  rw [hvnil, List.nil_append, List.drop_drop]
  congr 1
  omega

/-- `take` of a `drop`, rephrased through a larger `take`. -/
theorem take_drop_comm (l : List Nat) (j n : Nat) :
    (l.drop j).take n = (l.take (j + n)).drop j := by
  induction j generalizing l with
  | zero => simp
  | succ m ih =>
    cases l with
    | nil => simp
    | cons a t =>
      have hmn : m + 1 + n = m + n + 1 := by omega
      simp only [List.drop_succ_cons, hmn, List.take_succ_cons]
      rw [ih]

theorem byteSlice_eq_of_take_eq {l1 l2 : List Nat} {j n : Nat}
    (h : l1.take (j + n) = l2.take (j + n)) :
    byteSlice l1 j n = byteSlice l2 j n := by
  rw [byteSlice, byteSlice, take_drop_comm, take_drop_comm, h]

theorem byteSlice_writeRange_self {b v : List Nat} {i : Nat}
    (h : i + v.length ≤ b.length) :
    byteSlice (writeRange b i v) i v.length = v := by
  rw [byteSlice, writeRange, List.append_assoc, List.drop_append_eq_append_drop]
  have hlen : (b.take i).length = i := by
    simp
    omega
  have hnil : (b.take i).drop i = [] := by
    apply List.drop_eq_nil_of_le
    simp
  rw [hlen, hnil, Nat.sub_self, List.drop_zero, List.nil_append,
    List.take_append_eq_append_take, List.take_length, Nat.sub_self]
  simp

theorem byteSlice_writeRange_left {b v : List Nat} {i j n : Nat}
    (h1 : j + n ≤ i) (h2 : i ≤ b.length) :
    byteSlice (writeRange b i v) j n = byteSlice b j n :=
  byteSlice_eq_of_take_eq (take_writeRange h1 h2)

theorem byteSlice_writeRange_right {b v : List Nat} {i j n : Nat}
    (h1 : i + v.length ≤ j) (h2 : i + v.length ≤ b.length) :
    byteSlice (writeRange b i v) j n = byteSlice b j n := by
  rw [byteSlice, byteSlice, drop_writeRange h1 h2]

/-- `drop` of a `take`, rephrased the other way. -/
theorem drop_take_comm (l : List Nat) (j L : Nat) :
    (l.take L).drop j = (l.drop j).take (L - j) := by
  induction j generalizing l L with
  | zero => simp
  | succ m ih =>
    cases l with
    | nil => simp
    | cons a t =>
      cases L with
      | zero => simp
      | succ K =>
        simp only [List.take_succ_cons, List.drop_succ_cons]
        rw [ih]
        congr 1
        omega

/-- A sub-range of a known byteSlice equals the matching byteSlice of its value. -/
theorem byteSlice_of_byteSlice {b w : List Nat} {o L j n : Nat}
    (h : byteSlice b o L = w) (hjn : j + n ≤ L) :
    byteSlice b (o + j) n = byteSlice w j n := by
  subst h
  show (b.drop (o + j)).take n = (((b.drop o).take L).drop j).take n
  rw [drop_take_comm, List.take_take, Nat.min_eq_left (show n ≤ L - j by omega),
    List.drop_drop]

theorem length_writeHeader {b : List Nat} {id lo hi : Nat} (h : 6 ≤ b.length) :
    (writeHeader b id lo hi).length = b.length := by
  rw [writeHeader]
  rw [length_writeRange, length_writeRange, length_writeRange]
  · simpa [length_le16] using (by omega : 0 + 2 ≤ b.length)
  · rw [length_writeRange (by simpa [length_le16] using (by omega : 0 + 2 ≤ b.length))]
    simpa [length_le16] using (by omega : 2 + 2 ≤ b.length)
  · rw [length_writeRange, length_writeRange]
    · simpa [length_le16] using (by omega : 4 + 2 ≤ b.length)
    · simpa [length_le16] using (by omega : 0 + 2 ≤ b.length)
    · rw [length_writeRange (by simpa [length_le16] using (by omega : 0 + 2 ≤ b.length))]
      simpa [length_le16] using (by omega : 2 + 2 ≤ b.length)

theorem byteSlice_writeHeader_id {b : List Nat} {id lo hi : Nat} (h : 6 ≤ b.length) :
    byteSlice (writeHeader b id lo hi) 0 2 = le16 id := by
  have l1 : (writeRange b 0 (le16 id)).length = b.length :=
    length_writeRange (by simp [length_le16]; omega)
  have l2 : (writeRange (writeRange b 0 (le16 id)) 2 (le16 lo)).length = b.length := by
    rw [length_writeRange (by simp [length_le16, l1]; omega), l1]
  rw [writeHeader]
  rw [byteSlice_writeRange_left (by simp [length_le16]) (by omega)]
  rw [byteSlice_writeRange_left (by simp [length_le16]) (by omega)]
  have := byteSlice_writeRange_self (b := b) (v := le16 id) (i := 0)
    (by simp [length_le16]; omega)
  simpa using this

theorem byteSlice_writeHeader_lo {b : List Nat} {id lo hi : Nat} (h : 6 ≤ b.length) :
    byteSlice (writeHeader b id lo hi) 2 2 = le16 lo := by
  have l1 : (writeRange b 0 (le16 id)).length = b.length :=
    length_writeRange (by simp [length_le16]; omega)
  have l2 : (writeRange (writeRange b 0 (le16 id)) 2 (le16 lo)).length = b.length := by
    rw [length_writeRange (by simp [length_le16, l1]; omega), l1]
  rw [writeHeader]
  rw [byteSlice_writeRange_left (by simp [length_le16]) (by omega)]
  exact byteSlice_writeRange_self (by simp [length_le16, l1]; omega)

theorem byteSlice_writeHeader_hi {b : List Nat} {id lo hi : Nat} (h : 6 ≤ b.length) :
    byteSlice (writeHeader b id lo hi) 4 2 = le16 hi := by
  have l1 : (writeRange b 0 (le16 id)).length = b.length :=
    length_writeRange (by simp [length_le16]; omega)
  have l2 : (writeRange (writeRange b 0 (le16 id)) 2 (le16 lo)).length = b.length := by
    rw [length_writeRange (by simp [length_le16, l1]; omega), l1]
  rw [writeHeader]
  exact byteSlice_writeRange_self (by simp [length_le16, l2]; omega)

theorem readId_writeHeader {b : List Nat} {id lo hi : Nat} (h : 6 ≤ b.length) :
    readId (writeHeader b id lo hi) = id % 65536 := by
  have h0 := read16_at (@byteSlice_writeHeader_id b id lo hi h)
  simpa [readId] using h0

theorem readLower_writeHeader {b : List Nat} {id lo hi : Nat} (h : 6 ≤ b.length) :
    readLower (writeHeader b id lo hi) = lo % 65536 := by
  have h0 := read16_at (@byteSlice_writeHeader_lo b id lo hi h)
  simpa [readLower] using h0

theorem readHigher_writeHeader {b : List Nat} {id lo hi : Nat} (h : 6 ≤ b.length) :
    readHigher (writeHeader b id lo hi) = hi % 65536 := by
  have h0 := read16_at (@byteSlice_writeHeader_hi b id lo hi h)
  simpa [readHigher] using h0

/-- Bytes from offset 6 on are untouched by a header write. -/
theorem drop_writeHeader {b : List Nat} {id lo hi j : Nat}
    (h : 6 ≤ b.length) (hj : 6 ≤ j) :
    (writeHeader b id lo hi).drop j = b.drop j := by
  have l1 : (writeRange b 0 (le16 id)).length = b.length :=
    length_writeRange (by simp [length_le16]; omega)
  have l2 : (writeRange (writeRange b 0 (le16 id)) 2 (le16 lo)).length = b.length := by
    rw [length_writeRange (by simp [length_le16, l1]; omega), l1]
  rw [writeHeader]
  rw [drop_writeRange (by simp [length_le16]; omega) (by simp [length_le16, l2]; omega)]
  rw [drop_writeRange (by simp [length_le16]; omega) (by simp [length_le16, l1]; omega)]
  rw [drop_writeRange (by simp [length_le16]; omega) (by simp [length_le16]; omega)]

/-- Byte ranges from offset 6 on are untouched by a header write. -/
theorem byteSlice_writeHeader {b : List Nat} {id lo hi j n : Nat}
    (h : 6 ≤ b.length) (hj : 6 ≤ j) :
    byteSlice (writeHeader b id lo hi) j n = byteSlice b j n := by
  rw [byteSlice, byteSlice, drop_writeHeader h hj]

theorem length_tagBytes (fs : List DataField) : (tagBytes fs).length = 2 * fs.length := by
  induction fs with
  | nil => simp [tagBytes]
  | cons f t ih => simp [tagBytes, length_le16, ih]; omega

theorem length_encPayload_wf {f : DataField} (h : WFField f = true) :
    (encPayload f).length + 2 = fieldLen f := by
  cases f with
  | Integer n => simp [encPayload, fieldLen, length_le16]
  | Text s =>
    simp only [WFField, Bool.and_eq_true, decide_eq_true_eq] at h
    simp [encPayload, fieldLen, length_le16, Nat.mod_eq_of_lt h.1]
    omega

theorem length_payloadBytes_wf {fs : List DataField} (h : WFRow fs = true) :
    (payloadBytes fs).length + 2 * fs.length = fieldsLen fs := by
  induction fs with
  | nil => simp [payloadBytes, fieldsLen]
  | cons f t ih =>
    simp only [WFRow, List.all_cons, Bool.and_eq_true] at h
    have hf := length_encPayload_wf h.1
    have ht := ih (by simp [WFRow, h.2])
    simp only [payloadBytes, fieldsLen, List.length_append, List.length_cons]
    omega

theorem encodeRow_length (fs : List DataField) :
    (encodeRow fs).length = 2 + 2 * fs.length + (payloadBytes fs).length := by
  simp [encodeRow, length_le16, length_tagBytes]
  omega

theorem encLen_eq_rowLen {fs : List DataField} (h : WFRow fs = true) :
    (encodeRow fs).length = rowLen fs := by
  rw [encodeRow_length, rowLen, ← length_payloadBytes_wf h]
  omega

theorem fieldLen_ge (f : DataField) : 4 ≤ fieldLen f := by
  cases f <;> simp [fieldLen]

theorem rowLen_ge (fs : List DataField) : 2 + 2 * fs.length ≤ rowLen fs := by
  rw [rowLen]
  induction fs with
  | nil => simp [fieldsLen]
  | cons f t ih =>
    have := fieldLen_ge f
    simp only [fieldsLen, List.length_cons]
    omega

theorem totalLen_append (a c : List (List DataField)) :
    totalLen (a ++ c) = totalLen a + totalLen c := by
  induction a with
  | nil => simp [totalLen]
  | cons r t ih => simp [totalLen, ih]; omega

theorem to_int_lt (f : DataField) : f.to_int < 65536 := by
  cases f <;> simp [DataField.to_int]

/-- The stored layout of a list of tuples: reading slots from `so` with the
data region topped at `S`, slot `k` holds the 16-bit offset of tuple `k`,
whose encoded bytes sit just below the previous tuple.  This is the
recursive description of the slot directory and data region that the
write algorithm (`Storage::write_page`) maintains. -/
def Stored (b : List Nat) : Nat → Nat → List (List DataField) → Prop
  | _, _, [] => True
  | so, S, r :: rest =>
    byteSlice b so 2 = le16 (S - rowLen r) ∧
    byteSlice b (S - rowLen r) (rowLen r) = encodeRow r ∧
    Stored b (so + 2) (S - rowLen r) rest

/-- The slot pointers of the stored tuples, in slot order. -/
def ptrList (S : Nat) : List (List DataField) → List Nat
  | [] => []
  | r :: rest => (S - rowLen r) :: ptrList (S - rowLen r) rest

/-- `Stored` is unaffected by a write below both regions. -/
theorem Stored_writeRange_low {b v : List Nat} {i : Nat} :
    ∀ {rows : List (List DataField)} {so S : Nat},
    Stored b so S rows → i + v.length ≤ so → i + v.length ≤ S - totalLen rows →
    i + v.length ≤ b.length → Stored (writeRange b i v) so S rows := by
  intro rows
  induction rows with
  | nil => intro so S hst _ _ _; trivial
  | cons r rest ih =>
    intro so S hst hso hdat hb
    obtain ⟨hslot, hdata, hrest⟩ := hst
    have htl : totalLen (r :: rest) = rowLen r + totalLen rest := rfl
    refine ⟨?_, ?_, ?_⟩
    · rw [byteSlice_writeRange_right (by omega) hb]
      exact hslot
    · rw [byteSlice_writeRange_right (by omega) hb]
      exact hdata
    · exact ih hrest (by omega) (by omega) hb

/-- `Stored` is unaffected by a write between the slot directory and the
data region. -/
theorem Stored_writeRange_mid {b v : List Nat} {i : Nat} :
    ∀ {rows : List (List DataField)} {so S : Nat},
    Stored b so S rows → so + 2 * rows.length ≤ i →
    i + v.length ≤ S - totalLen rows → i + v.length ≤ b.length →
    Stored (writeRange b i v) so S rows := by
  intro rows
  induction rows with
  | nil => intro so S hst _ _ _; trivial
  | cons r rest ih =>
    intro so S hst hso hdat hb
    obtain ⟨hslot, hdata, hrest⟩ := hst
    have htl : totalLen (r :: rest) = rowLen r + totalLen rest := rfl
    have hlen : (r :: rest).length = rest.length + 1 := rfl
    refine ⟨?_, ?_, ?_⟩
    · rw [byteSlice_writeRange_left (by omega) (by omega)]
      exact hslot
    · rw [byteSlice_writeRange_right (by omega) hb]
      exact hdata
    · exact ih hrest (by omega) (by omega) hb

/-- Appending one tuple to the layout, given its slot and data bytes are
already in place. -/
theorem Stored_snoc {b : List Nat} {t : List DataField} :
    ∀ {rows : List (List DataField)} {so S : Nat},
    Stored b so S rows →
    byteSlice b (so + 2 * rows.length) 2 = le16 (S - totalLen rows - rowLen t) →
    byteSlice b (S - totalLen rows - rowLen t) (rowLen t) = encodeRow t →
    Stored b so S (rows ++ [t]) := by
  intro rows
  induction rows with
  | nil =>
    intro so S _ hslot hdata
    refine ⟨?_, ?_, trivial⟩
    · simpa [totalLen] using hslot
    · simpa [totalLen] using hdata
  | cons r rest ih =>
    intro so S hst hslot hdata
    obtain ⟨h1, h2, h3⟩ := hst
    refine ⟨h1, h2, ?_⟩
    have e1 : S - totalLen (r :: rest) - rowLen t
        = S - rowLen r - totalLen rest - rowLen t := by
      have : totalLen (r :: rest) = rowLen r + totalLen rest := rfl
      omega
    have e2 : so + 2 * (r :: rest).length = so + 2 + 2 * rest.length := by
      simp [List.length_cons]
      omega
    exact ih h3 (by rw [← e1, ← e2]; exact hslot) (by rw [← e1]; exact hdata)

/-- `Stored` is unaffected by rewriting the 6-byte header. -/
theorem Stored_writeHeader_keep {b : List Nat} {id lo hi : Nat}
    {rows : List (List DataField)} {so S : Nat}
    (hst : Stored b so S rows) (hso : 6 ≤ so) (hS : 6 ≤ S - totalLen rows)
    (hb : 6 ≤ b.length) :
    Stored (writeHeader b id lo hi) so S rows := by
  have l1 : (writeRange b 0 (le16 id)).length = b.length :=
    length_writeRange (by rw [length_le16]; omega)
  have l2 : (writeRange (writeRange b 0 (le16 id)) 2 (le16 lo)).length = b.length := by
    rw [length_writeRange (by rw [length_le16, l1]; omega), l1]
  rw [writeHeader]
  apply Stored_writeRange_low
  · apply Stored_writeRange_low
    · apply Stored_writeRange_low hst
      · rw [length_le16]
        omega
      · rw [length_le16]
        omega
      · rw [length_le16]
        omega
    · rw [length_le16]
      omega
    · rw [length_le16]
      omega
    · rw [length_le16, l1]
      omega
  · rw [length_le16]
    omega
  · rw [length_le16]
    omega
  · rw [length_le16, l2]
    omega

/-- The full invariant of a page reachable by in-capacity writes: the
header fields describe the slot directory and data region, which hold the
written tuples per `Stored`. -/
structure Good (b : List Nat) (S : Nat) (rows : List (List DataField)) : Prop where
  hlen : b.length = S
  hS6 : 6 ≤ S
  hS16 : S ≤ 65535
  hwf : ∀ r ∈ rows, WFRow r = true
  hlo : readLower b = 6 + 2 * rows.length
  hhi : readHigher b = S - totalLen rows
  hfit : 6 + 2 * rows.length + totalLen rows ≤ S
  hst : Stored b 6 S rows

/-- Unfolding `writePage` on the success path. -/
theorem writePage_eq_of {b : List Nat} {t : List DataField}
    (c1 : rowLen t ≤ 65535) (c2 : 6 ≤ b.length)
    (c3 : rowLen t ≤ readHigher b)
    (c4 : readHigher b - rowLen t + rowLen t ≤ b.length)
    (c5 : (encodeRow t).length = rowLen t)
    (c6 : readLower b + 2 ≤ (writeRange b (readHigher b - rowLen t) (encodeRow t)).length)
    (c7 : readLower b + 2 ≤ 65535) :
    writePage b t = some (writeHeader
      (writeRange (writeRange b (readHigher b - rowLen t) (encodeRow t))
        (readLower b) (le16 (readHigher b - rowLen t)))
      (readId b) (readLower b + 2) (readHigher b - rowLen t)) := by
  simp only [writePage]
  rw [if_pos c1, if_pos c2, if_pos c3, if_pos c4, if_pos c5, if_pos c6, if_pos c7]

/-- A fresh page satisfies the invariant with no tuples. -/
theorem good_init {S : Nat} (h6 : 6 ≤ S) (h16 : S ≤ 65535) :
    Good (pageNew S none) S [] := by
  have hrep : (List.replicate S 0 : List Nat).length = S := by simp
  have hb : 6 ≤ (List.replicate S 0 : List Nat).length := by omega
  refine ⟨?_, h6, h16, ?_, ?_, ?_, ?_, ?_⟩
  · rw [pageNew, length_writeHeader hb, hrep]
  · intro r hr
    simp at hr
  · rw [pageNew, readLower_writeHeader hb]
    simp
  · rw [pageNew, readHigher_writeHeader hb]
    simp [totalLen]
    omega
  · simp [totalLen]
    omega
  · trivial

/-- One in-capacity `Storage::write_page` succeeds and extends the invariant. -/
theorem write_succ {b : List Nat} {S : Nat} {rows : List (List DataField)}
    {t : List DataField} (hg : Good b S rows) (hwt : WFRow t = true)
    (hfit2 : 6 + 2 * (rows.length + 1) + totalLen rows + rowLen t ≤ S) :
    ∃ b2, writePage b t = some b2 ∧ Good b2 S (rows ++ [t]) := by
  obtain ⟨hlen, hS6, hS16, hwf, hlo, hhi, hfit, hst⟩ := hg
  have hrl : (encodeRow t).length = rowLen t := encLen_eq_rowLen hwt
  have hTL : totalLen rows ≤ S := by omega
  have hLle : rowLen t ≤ S - totalLen rows := by omega
  have c1 : rowLen t ≤ 65535 := by omega
  have c2 : 6 ≤ b.length := by omega
  have c3 : rowLen t ≤ readHigher b := by omega
  have c4 : readHigher b - rowLen t + rowLen t ≤ b.length := by omega
  have hb1len : (writeRange b (readHigher b - rowLen t) (encodeRow t)).length = b.length :=
    length_writeRange (by omega)
  have c6 : readLower b + 2 ≤ (writeRange b (readHigher b - rowLen t) (encodeRow t)).length := by
    rw [hb1len]
    omega
  have c7 : readLower b + 2 ≤ 65535 := by omega
  refine ⟨_, writePage_eq_of c1 c2 c3 c4 hrl c6 c7, ?_⟩
  rw [hlo, hhi]
  have hdOff : S - totalLen rows - rowLen t + rowLen t = S - totalLen rows := by omega
  have hb1lenS : (writeRange b (S - totalLen rows - rowLen t) (encodeRow t)).length = S := by
    rw [length_writeRange (by omega), hlen]
  have hb2len : (writeRange (writeRange b (S - totalLen rows - rowLen t) (encodeRow t))
      (6 + 2 * rows.length) (le16 (S - totalLen rows - rowLen t))).length = S := by
    rw [length_writeRange (by rw [hb1lenS, length_le16]; omega), hb1lenS]
  have hb2six : 6 ≤ (writeRange (writeRange b (S - totalLen rows - rowLen t) (encodeRow t))
      (6 + 2 * rows.length) (le16 (S - totalLen rows - rowLen t))).length := by
    rw [hb2len]
    omega
  have s1 : Stored (writeRange b (S - totalLen rows - rowLen t) (encodeRow t)) 6 S rows := by
    apply Stored_writeRange_mid hst (by omega)
    · rw [hrl]
      omega
    · rw [hrl, hlen]
      omega
  have s2 : Stored (writeRange (writeRange b (S - totalLen rows - rowLen t) (encodeRow t))
      (6 + 2 * rows.length) (le16 (S - totalLen rows - rowLen t))) 6 S rows := by
    apply Stored_writeRange_mid s1 (by omega)
    · rw [length_le16]
      omega
    · rw [length_le16, hb1lenS]
      omega
  have hslot : byteSlice (writeRange (writeRange b (S - totalLen rows - rowLen t) (encodeRow t))
      (6 + 2 * rows.length) (le16 (S - totalLen rows - rowLen t)))
      (6 + 2 * rows.length) 2 = le16 (S - totalLen rows - rowLen t) := by
    have := byteSlice_writeRange_self
      (b := writeRange b (S - totalLen rows - rowLen t) (encodeRow t))
      (v := le16 (S - totalLen rows - rowLen t)) (i := 6 + 2 * rows.length)
      (by rw [length_le16, hb1lenS]; omega)
    rw [length_le16] at this
    exact this
  have hdata : byteSlice (writeRange (writeRange b (S - totalLen rows - rowLen t) (encodeRow t))
      (6 + 2 * rows.length) (le16 (S - totalLen rows - rowLen t)))
      (S - totalLen rows - rowLen t) (rowLen t) = encodeRow t := by
    rw [byteSlice_writeRange_right (by rw [length_le16]; omega) (by rw [length_le16, hb1lenS]; omega)]
    have := byteSlice_writeRange_self (b := b) (v := encodeRow t)
      (i := S - totalLen rows - rowLen t) (by rw [hrl, hlen]; omega)
    rw [hrl] at this
    exact this
  have s3 : Stored (writeRange (writeRange b (S - totalLen rows - rowLen t) (encodeRow t))
      (6 + 2 * rows.length) (le16 (S - totalLen rows - rowLen t))) 6 S (rows ++ [t]) :=
    Stored_snoc s2 hslot hdata
  have htlapp : totalLen (rows ++ [t]) = totalLen rows + rowLen t := by
    rw [totalLen_append]
    simp [totalLen]
  have hceil : S - totalLen (rows ++ [t]) = S - totalLen rows - rowLen t := by omega
  refine ⟨?_, hS6, hS16, ?_, ?_, ?_, ?_, ?_⟩
  · rw [length_writeHeader hb2six, hb2len]
  · intro r hr
    rcases List.mem_append.mp hr with hra | hrb
    · exact hwf r hra
    · simp at hrb
      subst hrb
      exact hwt
  · rw [readLower_writeHeader hb2six, List.length_append]
    simp
    omega
  · rw [readHigher_writeHeader hb2six, htlapp]
    omega
  · rw [List.length_append, htlapp]
    simp
    omega
  · apply Stored_writeHeader_keep s3 (by omega)
    · rw [htlapp]
      omega
    · rw [hb2len]
      omega

theorem take_append_of_le {v w : List Nat} {n : Nat} (h : n ≤ v.length) :
    (v ++ w).take n = v.take n := by
  rw [List.take_append_eq_append_take]
  have h0 : n - v.length = 0 := by omega
  simp [h0]

/-- Dropping exactly the first of two appended chunks. -/
theorem drop_two_append {v w : List Nat} (h : v.length = 2) : (v ++ w).drop 2 = w := by
  rw [← h, List.drop_left]

/-- The 2-byte field count at the head of an encoded row. -/
theorem byteSlice_encodeRow_count (fs : List DataField) :
    byteSlice (encodeRow fs) 0 2 = le16 fs.length := by
  rw [byteSlice, List.drop_zero, encodeRow, List.append_assoc]
  rw [take_append_of_le (by rw [length_le16])]
  exact List.take_of_length_le (by rw [length_le16])

/-- The tag bytes inside an encoded row. -/
theorem byteSlice_encodeRow_tags (fs : List DataField) :
    byteSlice (encodeRow fs) 2 (2 * fs.length) = tagBytes fs := by
  rw [byteSlice, encodeRow, List.append_assoc, drop_two_append (length_le16 _)]
  rw [take_append_of_le (by rw [length_tagBytes])]
  exact List.take_of_length_le (by rw [length_tagBytes])

/-- The payload bytes inside an encoded row. -/
theorem byteSlice_encodeRow_payload (fs : List DataField) :
    byteSlice (encodeRow fs) (2 + 2 * fs.length) (payloadBytes fs).length
      = payloadBytes fs := by
  rw [byteSlice, encodeRow]
  rw [show 2 + 2 * fs.length = (le16 fs.length ++ tagBytes fs).length by
    simp [length_le16, length_tagBytes]]
  rw [List.drop_left, List.take_length]

/-- The tag-reading loop decodes the stored tags of a field sequence. -/
theorem readTags_of {b : List Nat} :
    ∀ (fs : List DataField) (off : Nat),
    byteSlice b off (2 * fs.length) = tagBytes fs →
    off + 2 * fs.length ≤ b.length →
    readTags b off fs.length = some (fs.map DataField.to_int, off + 2 * fs.length) := by
  intro fs
  induction fs with
  | nil =>
    intro off _ _
    simp [readTags]
  | cons f rest ih =>
    intro off hs hb
    have hlc : (f :: rest).length = rest.length + 1 := rfl
    have hsub0 : byteSlice b (off + 0) 2 = byteSlice (tagBytes (f :: rest)) 0 2 :=
      byteSlice_of_byteSlice hs (by simp only [List.length_cons]; omega)
    have htag : byteSlice (tagBytes (f :: rest)) 0 2 = le16 f.to_int := by
      rw [byteSlice, List.drop_zero, tagBytes]
      rw [take_append_of_le (by rw [length_le16])]
      exact List.take_of_length_le (by rw [length_le16])
    have hval : d16 (b.getD off 0) (b.getD (off + 1) 0) = f.to_int := by
      have hx := read16_at (x := f.to_int) (by rw [← hsub0] at htag; simpa using htag)
      rw [hx, Nat.mod_eq_of_lt (to_int_lt f)]
    have hsub2 : byteSlice b (off + 2) (2 * rest.length) = tagBytes rest := by
      have h2 := byteSlice_of_byteSlice (j := 2) (n := 2 * rest.length) hs
        (by simp only [List.length_cons]; omega)
      rw [h2]
      rw [byteSlice, tagBytes, drop_two_append (length_le16 _)]
      exact List.take_of_length_le (by rw [length_tagBytes])
    have ihh := ih (off + 2) hsub2 (by simp only [List.length_cons] at hb; omega)
    have harith : off + 2 * (f :: rest).length = off + 2 + 2 * rest.length := by
      simp only [List.length_cons]
      omega
    rw [harith, hlc, readTags]
    rw [if_pos (by simp only [List.length_cons] at hb; omega), ihh, hval]
    rfl

/-- The payload-decoding loop inverts the payload encoding. -/
theorem decodeFields_of {b : List Nat} :
    ∀ (fs : List DataField) (off : Nat), WFRow fs = true →
    byteSlice b off (payloadBytes fs).length = payloadBytes fs →
    off + (payloadBytes fs).length ≤ b.length →
    decodeFields b (fs.map DataField.to_int) off
      = some (fs, off + (payloadBytes fs).length) := by
  intro fs
  induction fs with
  | nil =>
    intro off _ _ _
    simp [decodeFields, payloadBytes]
  | cons f rest ih =>
    intro off hwf hs hb
    have hwff : WFField f = true ∧ WFRow rest = true := by
      simpa [WFRow] using hwf
    cases f with
    | Integer n =>
      have hn : n < 65536 := by simpa [WFField] using hwff.1
      have hpl : (payloadBytes (DataField.Integer n :: rest)).length
          = 2 + (payloadBytes rest).length := by
        simp [payloadBytes, encPayload, length_le16]
      have hsub0 : byteSlice b (off + 0) 2
          = byteSlice (payloadBytes (.Integer n :: rest)) 0 2 :=
        byteSlice_of_byteSlice hs (by omega)
      have hhead : byteSlice (payloadBytes (.Integer n :: rest)) 0 2 = le16 n := by
        rw [byteSlice, List.drop_zero, payloadBytes, encPayload]
        rw [take_append_of_le (by rw [length_le16])]
        exact List.take_of_length_le (by rw [length_le16])
      have hval : d16 (b.getD off 0) (b.getD (off + 1) 0) = n := by
        have hx := read16_at (x := n) (by rw [← hsub0] at hhead; simpa using hhead)
        rw [hx, Nat.mod_eq_of_lt hn]
      have hsub2 : byteSlice b (off + 2) (payloadBytes rest).length = payloadBytes rest := by
        have h2 := byteSlice_of_byteSlice (j := 2) (n := (payloadBytes rest).length) hs
          (by omega)
        rw [h2, byteSlice, payloadBytes, encPayload,
          show (2:Nat) = (le16 n).length from (length_le16 _).symm,
          List.drop_left, List.take_length]
      have ihh := ih (off + 2) hwff.2 hsub2 (by omega)
      have harith : off + (payloadBytes (DataField.Integer n :: rest)).length
          = off + 2 + (payloadBytes rest).length := by omega
      rw [harith]
      simp only [List.map_cons, decodeFields]
      rw [if_pos (show (DataField.Integer n).to_int = 1 from rfl)]
      rw [if_pos (by omega : off + 2 ≤ b.length)]
      rw [ihh, hval]
    | Text s =>
      have hslen : s.length < 65536 ∧ isValidUTF8 s = true := by
        simpa [WFField] using hwff.1
      have hpl : (payloadBytes (DataField.Text s :: rest)).length
          = 2 + s.length + (payloadBytes rest).length := by
        simp [payloadBytes, encPayload, length_le16]
        omega
      have hsub0 : byteSlice b (off + 0) 2
          = byteSlice (payloadBytes (.Text s :: rest)) 0 2 :=
        byteSlice_of_byteSlice hs (by omega)
      have hhead : byteSlice (payloadBytes (.Text s :: rest)) 0 2 = le16 s.length := by
        rw [byteSlice, List.drop_zero, payloadBytes, encPayload, List.append_assoc]
        rw [take_append_of_le (by rw [length_le16])]
        exact List.take_of_length_le (by rw [length_le16])
      have hval : d16 (b.getD off 0) (b.getD (off + 1) 0) = s.length := by
        have hx := read16_at (x := s.length) (by rw [← hsub0] at hhead; simpa using hhead)
        rw [hx, Nat.mod_eq_of_lt hslen.1]
      have hsubtext : byteSlice b (off + 2) s.length = s := by
        have h2 := byteSlice_of_byteSlice (j := 2) (n := s.length) hs (by omega)
        rw [h2, byteSlice, payloadBytes, encPayload, List.append_assoc,
          show (2:Nat) = (le16 s.length).length from (length_le16 _).symm,
          List.drop_left, take_append_of_le (le_refl s.length), List.take_length]
      have hsubrest : byteSlice b (off + 2 + s.length) (payloadBytes rest).length
          = payloadBytes rest := by
        have h2 := byteSlice_of_byteSlice (j := 2 + s.length)
          (n := (payloadBytes rest).length) hs (by omega)
        rw [show off + (2 + s.length) = off + 2 + s.length by omega] at h2
        rw [h2, byteSlice, payloadBytes, encPayload,
          show 2 + s.length = (le16 s.length ++ s).length by simp [length_le16],
          List.drop_left, List.take_length]
      have ihh := ih (off + 2 + s.length) hwff.2 hsubrest (by omega)
      have harith : off + (payloadBytes (DataField.Text s :: rest)).length
          = off + 2 + s.length + (payloadBytes rest).length := by omega
      rw [harith]
      simp only [List.map_cons, decodeFields]
      rw [if_neg (show ¬ (DataField.Text s).to_int = 1 by simp [DataField.to_int])]
      rw [if_pos (show (DataField.Text s).to_int = 2 from rfl)]
      rw [if_pos (by omega : off + 2 ≤ b.length)]
      rw [hval]
      rw [if_pos (by omega : off + 2 + s.length ≤ b.length)]
      rw [hsubtext, if_pos hslen.2, ihh]

/-- Decoding at the start of an embedded encoded row recovers the fields. -/
theorem decodeRowAt_of {b : List Nat} {fs : List DataField} {o : Nat}
    (hwf : WFRow fs = true) (hn : fs.length < 65536)
    (hs : byteSlice b o (encodeRow fs).length = encodeRow fs)
    (hb : o + (encodeRow fs).length ≤ b.length) :
    decodeRowAt b o = some fs := by
  have hel : (encodeRow fs).length = 2 + 2 * fs.length + (payloadBytes fs).length :=
    encodeRow_length fs
  have hcount : d16 (b.getD o 0) (b.getD (o + 1) 0) = fs.length := by
    have hsub := byteSlice_of_byteSlice (j := 0) (n := 2) hs (by omega)
    rw [byteSlice_encodeRow_count] at hsub
    have hx := read16_at (x := fs.length) (by simpa using hsub)
    rw [hx, Nat.mod_eq_of_lt hn]
  have htags : byteSlice b (o + 2) (2 * fs.length) = tagBytes fs := by
    have hsub := byteSlice_of_byteSlice (j := 2) (n := 2 * fs.length) hs (by omega)
    rw [byteSlice_encodeRow_tags] at hsub
    exact hsub
  have hpay : byteSlice b (o + 2 + 2 * fs.length) (payloadBytes fs).length
      = payloadBytes fs := by
    have hsub := byteSlice_of_byteSlice (j := 2 + 2 * fs.length)
      (n := (payloadBytes fs).length) hs (by omega)
    rw [byteSlice_encodeRow_payload] at hsub
    rw [show o + 2 + 2 * fs.length = o + (2 + 2 * fs.length) by omega]
    exact hsub
  have hrt := readTags_of fs (o + 2) htags (by omega)
  have hdf := decodeFields_of fs (o + 2 + 2 * fs.length) hwf hpay (by omega)
  rw [decodeRowAt, if_pos (by omega), hcount, hrt]
  show (match decodeFields b (fs.map DataField.to_int) (o + 2 + 2 * fs.length) with
    | none => none
    | some (fs2, _) => some fs2) = some fs
  rw [hdf]

/-- The slot scan returns the stored pointers, in slot order. -/
theorem readPointers_of {b : List Nat} :
    ∀ (rows : List (List DataField)) (so S : Nat),
    Stored b so S rows → 2 ≤ so → so + 2 * rows.length ≤ b.length → S ≤ 65535 →
    readPointers b so (so + 2 * rows.length - 2) = some (ptrList S rows) := by
  intro rows
  induction rows with
  | nil =>
    intro so S _ hso _ _
    rw [readPointers]
    rw [dif_neg (by simp only [List.length_cons, List.length_nil]; omega)]
    rfl
  | cons r rest ih =>
    intro so S hst hso hb h16
    obtain ⟨hslot, hdata, hrest⟩ := hst
    have hlc : (r :: rest).length = rest.length + 1 := rfl
    have hval : d16 (b.getD so 0) (b.getD (so + 1) 0) = S - rowLen r := by
      have hx := read16_at (x := S - rowLen r) hslot
      rw [hx, Nat.mod_eq_of_lt (by omega)]
    have ihh := ih (so + 2) (S - rowLen r) hrest (by omega)
      (by simp only [List.length_cons] at hb; omega) (by omega)
    have harith : so + 2 * (r :: rest).length - 2 = so + 2 + 2 * rest.length - 2 := by
      simp only [List.length_cons]
      omega
    rw [harith]
    rw [readPointers]
    rw [dif_pos (by simp only [List.length_cons] at hb ⊢; omega)]
    rw [if_pos (by simp only [List.length_cons] at hb; omega)]
    rw [show so + 2 + 2 * rest.length - 2 = (so + 2) + 2 * rest.length - 2 by omega, ihh, hval]
    rfl

/-- Decoding the stored pointers yields the stored tuples, in order. -/
theorem readRows_of {b : List Nat} :
    ∀ (rows : List (List DataField)) (so S : Nat),
    Stored b so S rows → (∀ r ∈ rows, WFRow r = true) →
    totalLen rows ≤ S → S ≤ b.length → S ≤ 65535 →
    readRows b (ptrList S rows) = some rows := by
  intro rows
  induction rows with
  | nil =>
    intro so S _ _ _ _ _
    rfl
  | cons r rest ih =>
    intro so S hst hwf htl hSb h16
    obtain ⟨hslot, hdata, hrest⟩ := hst
    have htlc : totalLen (r :: rest) = rowLen r + totalLen rest := rfl
    have hwfr : WFRow r = true := hwf r (by simp)
    have hL : rowLen r ≤ S := by omega
    have hrg := rowLen_ge r
    have hdec : decodeRowAt b (S - rowLen r) = some r := by
      apply decodeRowAt_of hwfr (by omega)
      · rw [encLen_eq_rowLen hwfr]
        exact hdata
      · rw [encLen_eq_rowLen hwfr]
        omega
    have ihh := ih (so + 2) (S - rowLen r) hrest
      (by intro x hx; exact hwf x (by simp [hx])) (by omega) (by omega) (by omega)
    show readRows b ((S - rowLen r) :: ptrList (S - rowLen r) rest) = some (r :: rest)
    rw [readRows, hdec, ihh]

/-- Any page satisfying the invariant reads back exactly its tuples. -/
theorem read_of_good {b : List Nat} {S : Nat} {rows : List (List DataField)}
    (hg : Good b S rows) : pageRead b = some rows := by
  obtain ⟨hlen, hS6, hS16, hwf, hlo, hhi, hfit, hst⟩ := hg
  have hrp := readPointers_of rows 6 S hst (by omega) (by omega) hS16
  rw [pageRead, if_pos (by omega), hlo]
  rw [if_pos (by omega)]
  rw [show 6 + 2 * rows.length - 2 = 6 + 2 * rows.length - 2 from rfl, hrp]
  exact readRows_of rows 6 S hst hwf (by omega) (by omega) hS16

/-- Writing a whole list of tuples succeeds and extends the invariant,
provided the combined slot and data bytes fit. -/
theorem writeAll_succ :
    ∀ {ts : List (List DataField)} {b : List Nat} {S : Nat}
    {rows : List (List DataField)},
    Good b S rows → (∀ t ∈ ts, WFRow t = true) →
    6 + 2 * (rows.length + ts.length) + totalLen rows + totalLen ts ≤ S →
    ∃ b2, writeAll b ts = some b2 ∧ Good b2 S (rows ++ ts) := by
  intro ts
  induction ts with
  | nil =>
    intro b S rows hg _ _
    refine ⟨b, rfl, ?_⟩
    simpa using hg
  | cons t rest ih =>
    intro b S rows hg hwf hfit
    have htlc : totalLen (t :: rest) = rowLen t + totalLen rest := rfl
    have hstep := write_succ hg (hwf t (by simp))
      (by simp only [List.length_cons] at hfit; omega)
    obtain ⟨b1, hw1, hg1⟩ := hstep
    have hih := ih hg1 (by intro x hx; exact hwf x (by simp [hx]))
      (by simp only [List.length_cons, List.length_append, List.length_nil] at hfit ⊢
          rw [totalLen_append] at *
          simp only [totalLen] at *
          omega)
    obtain ⟨b2, hw2, hg2⟩ := hih
    refine ⟨b2, ?_, ?_⟩
    · rw [writeAll, hw1]
      show writeAll b1 rest = some b2
      exact hw2
    · rw [List.append_assoc] at hg2
      simpa using hg2

/-- A successful `Storage::write_page` preserves the buffer length. -/
theorem length_writePage {b : List Nat} {t : List DataField} {b2 : List Nat}
    (h : writePage b t = some b2) : b2.length = b.length := by
  simp only [writePage] at h
  by_cases c1 : rowLen t ≤ 65535
  case neg => rw [if_neg c1] at h; exact absurd h (by simp)
  rw [if_pos c1] at h
  by_cases c2 : 6 ≤ b.length
  case neg => rw [if_neg c2] at h; exact absurd h (by simp)
  rw [if_pos c2] at h
  by_cases c3 : rowLen t ≤ readHigher b
  case neg => rw [if_neg c3] at h; exact absurd h (by simp)
  rw [if_pos c3] at h
  by_cases c4 : readHigher b - rowLen t + rowLen t ≤ b.length
  case neg => rw [if_neg c4] at h; exact absurd h (by simp)
  rw [if_pos c4] at h
  by_cases c5 : (encodeRow t).length = rowLen t
  case neg => rw [if_neg c5] at h; exact absurd h (by simp)
  rw [if_pos c5] at h
  by_cases c6 : readLower b + 2 ≤ (writeRange b (readHigher b - rowLen t) (encodeRow t)).length
  case neg => rw [if_neg c6] at h; exact absurd h (by simp)
  rw [if_pos c6] at h
  by_cases c7 : readLower b + 2 ≤ 65535
  case neg => rw [if_neg c7] at h; exact absurd h (by simp)
  rw [if_pos c7] at h
  have hb2 : writeHeader
      (writeRange (writeRange b (readHigher b - rowLen t) (encodeRow t))
        (readLower b) (le16 (readHigher b - rowLen t)))
      (readId b) (readLower b + 2) (readHigher b - rowLen t) = b2 := by
    injection h
  have l1 : (writeRange b (readHigher b - rowLen t) (encodeRow t)).length = b.length :=
    length_writeRange (by omega)
  have l2 : (writeRange (writeRange b (readHigher b - rowLen t) (encodeRow t))
      (readLower b) (le16 (readHigher b - rowLen t))).length = b.length := by
    rw [length_writeRange (by rw [length_le16, l1]; omega), l1]
  rw [← hb2, length_writeHeader (by rw [l2]; omega), l2]

/-- When the true encoded row length disagrees with the truncated
`data_len` counter, `Storage::write_page` always panics (the
`copy_from_slice` length mismatch), whatever the page state. -/
theorem writePage_len_mismatch {b : List Nat} {t : List DataField}
    (hmm : (encodeRow t).length ≠ rowLen t) : writePage b t = none := by
  simp only [writePage]
  by_cases c1 : rowLen t ≤ 65535
  case neg => rw [if_neg c1]
  rw [if_pos c1]
  by_cases c2 : 6 ≤ b.length
  case neg => rw [if_neg c2]
  rw [if_pos c2]
  by_cases c3 : rowLen t ≤ readHigher b
  case neg => rw [if_neg c3]
  rw [if_pos c3]
  by_cases c4 : readHigher b - rowLen t + rowLen t ≤ b.length
  case neg => rw [if_neg c4]
  rw [if_pos c4]
  rw [if_neg hmm]

/-- Header and zero-fill facts about a freshly initialised buffer. -/
theorem freshHeader_spec (S id : Nat) (h6 : 6 ≤ S) (h16 : S ≤ 65535) (hid : id < 65536) :
    (writeHeader (List.replicate S 0) id 6 S).length = S ∧
    readId (writeHeader (List.replicate S 0) id 6 S) = id ∧
    readLower (writeHeader (List.replicate S 0) id 6 S) = 6 ∧
    readHigher (writeHeader (List.replicate S 0) id 6 S) = S ∧
    (writeHeader (List.replicate S 0) id 6 S).drop 6 = List.replicate (S - 6) 0 := by
  have hb : 6 ≤ (List.replicate S 0 : List Nat).length := by
    simp
    omega
  refine ⟨?_, ?_, ?_, ?_, ?_⟩
  · rw [length_writeHeader hb]
    simp
  · rw [readId_writeHeader hb, Nat.mod_eq_of_lt hid]
  · rw [readLower_writeHeader hb]
  · rw [readHigher_writeHeader hb, Nat.mod_eq_of_lt (by omega)]
  · rw [drop_writeHeader hb (by omega)]
    simp

/-- Claim C1 (code bug): the write-then-read round trip is the clear
intent (the repo's own `test_create_page` asserts it) but it is false of
`Page::write`, which self-deadlocks before touching the buffer on every
call — the first conjunct — so `read()` after one `write()` never
observes a tuple.  The same append algorithm as realized in the
lock-free `Storage::write_page` does return exactly the written sequence
(integers and UTF-8 text, empty text and zero included) as the single
tuple present, in order — the second conjunct.  The capacity bound
`8 + rowLen fields ≤ S` is the room for the encoded row plus one slot
entry. -/
theorem c1_single_write_round_trip (S : Nat) (fields : List DataField)
    (h6 : 6 ≤ S) (h16 : S ≤ 65535) (hwf : WFRow fields = true)
    (hfit : 8 + rowLen fields ≤ S) :
    pageWrite (pageNew S none) fields = none ∧
    ∃ b, writePage (pageNew S none) fields = some b ∧
      pageRead b = some [fields] := by
  refine ⟨rfl, ?_⟩
  have hg := good_init h6 h16
  obtain ⟨b, hw, hgood⟩ := write_succ hg hwf
    (by simp only [List.length_nil, totalLen]; omega)
  exact ⟨b, hw, by simpa using read_of_good hgood⟩

/-- Concrete field list for the C1 witness: empty text, zero, text
"data", and the largest 16-bit integer. -/
def c1Fields : List DataField :=
  [DataField.Text [], DataField.Integer 0,
   DataField.Text [100, 97, 116, 97], DataField.Integer 65535]

theorem c1_single_write_round_trip_witness :
    6 ≤ 8192 ∧ 8192 ≤ 65535 ∧ WFRow c1Fields = true ∧ 8 + rowLen c1Fields ≤ 8192 ∧
    (pageWrite (pageNew 8192 none) c1Fields = none ∧
     ∃ b, writePage (pageNew 8192 none) c1Fields = some b ∧
      pageRead b = some [c1Fields]) :=
  ⟨by decide, by decide, by decide, by decide,
    c1_single_write_round_trip 8192 c1Fields (by decide) (by decide) (by decide) (by decide)⟩

/-- Claim C2 (code bug): slot order = insertion order is the intended
contract but it is false of the code: the very first `Page::write` call
already deadlocks (first conjunct), so no sequence of tuples is ever
written by `Page::write`.  The write algorithm as realized in the
lock-free `Storage::write_page`, applied successively, does yield
T1..Tn back in exactly insertion order whenever the combined slot
entries and encoded bytes fit in the fresh page (second conjunct). -/
theorem c2_insertion_order (S : Nat) (ts : List (List DataField))
    (h6 : 6 ≤ S) (h16 : S ≤ 65535) (hwf : ∀ t ∈ ts, WFRow t = true)
    (hfit : 6 + 2 * ts.length + totalLen ts ≤ S) :
    (∀ t, pageWrite (pageNew S none) t = none) ∧
    ∃ b, writeAll (pageNew S none) ts = some b ∧ pageRead b = some ts := by
  refine ⟨fun _ => rfl, ?_⟩
  have hg := good_init h6 h16
  obtain ⟨b, hw, hgood⟩ := writeAll_succ hg hwf
    (by simp only [List.length_nil, totalLen]; omega)
  exact ⟨b, hw, by simpa using read_of_good hgood⟩

/-- Concrete tuple list for the C2 witness. -/
def c2Tuples : List (List DataField) :=
  [[DataField.Integer 7], [DataField.Text [104, 105]], [DataField.Integer 0]]

theorem c2_insertion_order_witness :
    6 ≤ 8192 ∧ 8192 ≤ 65535 ∧ (∀ t ∈ c2Tuples, WFRow t = true) ∧
    6 + 2 * c2Tuples.length + totalLen c2Tuples ≤ 8192 ∧
    ((∀ t, pageWrite (pageNew 8192 none) t = none) ∧
     ∃ b, writeAll (pageNew 8192 none) c2Tuples = some b ∧
      pageRead b = some c2Tuples) :=
  ⟨by decide, by decide, by decide, by decide,
    c2_insertion_order 8192 c2Tuples (by decide) (by decide) (by decide) (by decide)⟩

/-- Claim C4: the header invariant `6 ≤ low_water ≤ high_water ≤ size`
holds in every page state reachable from a fresh page by successful
`Page::write` operations, and every successful write preserves it.  Both
parts hold of the code, though degenerately: the fresh page satisfies
the invariant, and `Page::write` never completes (it self-deadlocks
re-locking its own mutex in `read_metadata`), so the fresh page is the
only reachable state and the preservation condition is never
exercised. -/
theorem c4_invariant_holds (S : Nat) (b : List Nat) (h6 : 6 ≤ S)
    (h16 : S ≤ 65535) (hr : ReachableByWrites S b) :
    (b.length = S ∧ 6 ≤ readLower b ∧ readLower b ≤ readHigher b ∧
      readHigher b ≤ S) ∧
    (∀ t b2, pageWrite b t = some b2 →
      b2.length = S ∧ 6 ≤ readLower b2 ∧ readLower b2 ≤ readHigher b2 ∧
        readHigher b2 ≤ S) := by
  induction hr with
  | init =>
    obtain ⟨a1, a2, a3, a4, a5⟩ := freshHeader_spec S 0 h6 h16 (by norm_num)
    have hpn : pageNew S none = writeHeader (List.replicate S 0) 0 6 S := rfl
    constructor
    · rw [hpn, a3, a4]
      exact ⟨a1, by omega, by omega, by omega⟩
    · intro t b2 hw
      exact absurd hw (by simp [pageWrite])
  | step b b2 t hb hw ih =>
    exact absurd hw (by simp [pageWrite])

theorem c4_invariant_holds_witness :
    6 ≤ 8192 ∧ 8192 ≤ 65535 ∧ ReachableByWrites 8192 (pageNew 8192 none) ∧
    (((pageNew 8192 none).length = 8192 ∧ 6 ≤ readLower (pageNew 8192 none) ∧
      readLower (pageNew 8192 none) ≤ readHigher (pageNew 8192 none) ∧
      readHigher (pageNew 8192 none) ≤ 8192) ∧
     (∀ t b2, pageWrite (pageNew 8192 none) t = some b2 →
       b2.length = 8192 ∧ 6 ≤ readLower b2 ∧ readLower b2 ≤ readHigher b2 ∧
         readHigher b2 ≤ 8192)) :=
  ⟨by decide, by decide, ReachableByWrites.init,
    c4_invariant_holds 8192 (pageNew 8192 none) (by decide) (by decide)
      ReachableByWrites.init⟩

/-- The scenario fields of claim C5: `[Text "data", Integer 10]`
("data" is the UTF-8 bytes `[100, 97, 116, 97]`). -/
def scenarioFields : List DataField :=
  [DataField.Text [100, 97, 116, 97], DataField.Integer 10]

/-- Claim C5 counterexample: `Page::write` of `[Text "data", Integer 10]`
into a fresh 8192-byte page never completes (self-deadlock), so no
post-write header state arises at all; and even the write algorithm
itself (the lock-free `Storage::write_page`) leaves
`high_water = 8178` — the encoded row is 14 bytes, not 12 — refuting
`high_water = 8180`. -/
theorem c5_header_cex :
    pageWrite (pageNew 8192 none) scenarioFields = none ∧
    readHigher ((writePage (pageNew 8192 none) scenarioFields).getD []) = 8178 ∧
    (8178 : Nat) ≠ 8180 := by
  obtain ⟨b, hw, hgood⟩ := write_succ (t := scenarioFields)
    (good_init (S := 8192) (by norm_num) (by norm_num)) (by decide) (by decide)
  refine ⟨rfl, ?_, by decide⟩
  rw [hw]
  show readHigher b = 8178
  rw [hgood.hhi]
  decide

/-- Claim C5 (amended): on a fresh 8192-byte page `Page::write` of
`[Text "data", Integer 10]` never completes (self-deadlock at the
`read_metadata` re-lock), so the claimed post-write state never arises;
the write algorithm itself, as realized in the lock-free
`Storage::write_page`, leaves the header at `low_water = 8` and
`high_water = 8178`, and `read()` then returns exactly that single
tuple. -/
theorem c5_scenario :
    pageWrite (pageNew 8192 none) scenarioFields = none ∧
    ∃ b, writePage (pageNew 8192 none) scenarioFields = some b ∧
      readLower b = 8 ∧ readHigher b = 8178 ∧
      pageRead b = some [scenarioFields] := by
  refine ⟨rfl, ?_⟩
  obtain ⟨b, hw, hgood⟩ := write_succ (t := scenarioFields)
    (good_init (S := 8192) (by norm_num) (by norm_num)) (by decide) (by decide)
  refine ⟨b, hw, ?_, ?_, by simpa using read_of_good hgood⟩
  · rw [hgood.hlo]
    decide
  · rw [hgood.hhi]
    decide

/-- Claim C3 (code bug): there is no capacity check and never a
recoverable capacity error.  `Page::write` itself never returns on any
input, fitting or not (it self-deadlocks before reading the header) —
the first conjunct.  And the append algorithm it would have run (the
lock-free `Storage::write_page`) also has no check: on a fresh page of
size 8 (free region `[6, 8)`, 2 bytes), writing the empty tuple (encoded
length 2, needing 2 more bytes of slot entry) is exactly the claimed
error case `high_water - L < low_water + 2`, yet it performs the write,
leaving `low_water = 8 > high_water = 6`; and writing a 10-byte tuple
makes `higher -= data_len` underflow, a panic (`none`), not an error
value. -/
theorem c3_no_capacity_check :
    (∀ b t, pageWrite b t = none) ∧
    writePage (pageNew 8 none) [] = some [0, 0, 8, 0, 6, 0, 6, 0] ∧
    writePage (pageNew 8 none) [DataField.Integer 1, DataField.Integer 2] = none :=
  ⟨fun _ _ => rfl, by decide, by decide⟩

/-- The first malformed buffer for claim C6: header `lower = 8`,
`higher = 10`, one slot pointing at offset 10, where the stored tuple has
field count 1 and the unrecognised type tag 3. -/
def corruptTagPage : List Nat :=
  [0, 0, 8, 0, 10, 0, 10, 0, 0, 0, 1, 0, 3, 0, 0, 0]

/-- The second malformed buffer for claim C6: as above but the tuple has
tag 2 (text) with declared length 1 and the invalid UTF-8 byte 255. -/
def corruptUTF8Page : List Nat :=
  [0, 0, 8, 0, 10, 0, 10, 0, 0, 0, 1, 0, 2, 0, 1, 0, 255]

/-- Claim C6 (code bug): on malformed tuple data `Page::read` does not
surface a recoverable "corrupt page" error — it panics
(`panic!("invalid number")` on an unknown tag, a failing
`String::from_utf8(..).unwrap()` on invalid UTF-8), modelled here by the
whole read evaluating to `none` rather than an error value distinct from
a crash. -/
theorem c6_read_aborts :
    pageRead corruptTagPage = none ∧ pageRead corruptUTF8Page = none := by
  constructor
  · have h1 : readPointers corruptTagPage 8 6 = some [] := by
      rw [readPointers]
      rfl
    have h2 : readPointers corruptTagPage 6 6 = some [10] := by
      rw [readPointers]
      rw [dif_pos (by norm_num), if_pos (by decide), h1]
      rfl
    have hlo : readLower corruptTagPage = 8 := by decide
    rw [pageRead, if_pos (by decide), hlo, if_pos (by norm_num)]
    rw [show (8 : Nat) - 2 = 6 from rfl, h2]
    decide
  · have h1 : readPointers corruptUTF8Page 8 6 = some [] := by
      rw [readPointers]
      rfl
    have h2 : readPointers corruptUTF8Page 6 6 = some [10] := by
      rw [readPointers]
      rw [dif_pos (by norm_num), if_pos (by decide), h1]
      rfl
    have hlo : readLower corruptUTF8Page = 8 := by decide
    rw [pageRead, if_pos (by decide), hlo, if_pos (by norm_num)]
    rw [show (8 : Nat) - 2 = 6 from rfl, h2]
    decide

/-- Claim C7: a page constructed without existing bytes is a buffer of
exactly `size` bytes, zero everywhere outside the 6-byte header, with the
header holding the constructor's id (0 for `Page::new`, 1 for
`Storage::create_page`), `low_water = 6` and `high_water = size`, each
16-bit little-endian at offsets 0-1, 2-3, 4-5. -/
theorem c7_fresh_page (S : Nat) (h6 : 6 ≤ S) (h16 : S ≤ 65535) :
    (pageNew S none).length = S ∧ readId (pageNew S none) = 0 ∧
    readLower (pageNew S none) = 6 ∧ readHigher (pageNew S none) = S ∧
    (pageNew S none).drop 6 = List.replicate (S - 6) 0 ∧
    byteSlice (pageNew S none) 0 2 = le16 0 ∧
    byteSlice (pageNew S none) 2 2 = le16 6 ∧
    byteSlice (pageNew S none) 4 2 = le16 S ∧
    createPage.length = 8192 ∧ readId createPage = 1 ∧
    readLower createPage = 6 ∧ readHigher createPage = 8192 ∧
    createPage.drop 6 = List.replicate 8186 0 := by
  have hpn : pageNew S none = writeHeader (List.replicate S 0) 0 6 S := rfl
  have hcp : createPage = writeHeader (List.replicate 8192 0) 1 6 8192 := rfl
  obtain ⟨a1, a2, a3, a4, a5⟩ := freshHeader_spec S 0 h6 h16 (by norm_num)
  obtain ⟨d1, d2, d3, d4, d5⟩ :=
    freshHeader_spec 8192 1 (by norm_num) (by norm_num) (by norm_num)
  have hb : 6 ≤ (List.replicate S 0 : List Nat).length := by
    simp
    omega
  refine ⟨by rw [hpn]; exact a1, by rw [hpn]; exact a2, by rw [hpn]; exact a3,
    by rw [hpn]; exact a4, by rw [hpn]; exact a5, ?_, ?_, ?_,
    by rw [hcp]; exact d1, by rw [hcp]; exact d2, by rw [hcp]; exact d3,
    by rw [hcp]; exact d4, by rw [hcp]; exact d5⟩
  · rw [hpn]
    exact byteSlice_writeHeader_id hb
  · rw [hpn]
    exact byteSlice_writeHeader_lo hb
  · rw [hpn]
    exact byteSlice_writeHeader_hi hb

theorem c7_fresh_page_witness :
    6 ≤ 8192 ∧ 8192 ≤ 65535 ∧
    ((pageNew 8192 none).length = 8192 ∧ readId (pageNew 8192 none) = 0 ∧
     readLower (pageNew 8192 none) = 6 ∧ readHigher (pageNew 8192 none) = 8192 ∧
     (pageNew 8192 none).drop 6 = List.replicate (8192 - 6) 0 ∧
     byteSlice (pageNew 8192 none) 0 2 = le16 0 ∧
     byteSlice (pageNew 8192 none) 2 2 = le16 6 ∧
     byteSlice (pageNew 8192 none) 4 2 = le16 8192 ∧
     createPage.length = 8192 ∧ readId createPage = 1 ∧
     readLower createPage = 6 ∧ readHigher createPage = 8192 ∧
     createPage.drop 6 = List.replicate 8186 0) :=
  ⟨by decide, by decide, c7_fresh_page 8192 (by decide) (by decide)⟩

/-- Claim C8: `insert_data` reads exactly `PAGE_SIZE` bytes from an
existing file (or starts from a freshly initialised page when the file
does not exist), appends the one tuple via the page write, and rewrites
the file from byte 0 with the whole buffer, so the file's first
`PAGE_SIZE` bytes afterwards equal the updated page buffer. -/
theorem c8_insert_file (c : List Nat) (fields : List DataField)
    (hlen : PAGE_SIZE ≤ c.length) :
    insertData (some c) fields
      = (match writePage (c.take PAGE_SIZE) fields with
         | none => none
         | some p => some (p ++ c.drop PAGE_SIZE)) ∧
    insertData none fields = writePage createPage fields ∧
    (∀ o, insertData (some c) fields = some o →
      o.take PAGE_SIZE = (writePage (c.take PAGE_SIZE) fields).getD []) := by
  refine ⟨?_, ?_, ?_⟩
  · rw [insertData, if_pos hlen]
  · cases hpw : writePage createPage fields with
    | none => simp [insertData, hpw]
    | some p => simp [insertData, hpw]
  · intro o ho
    rw [insertData, if_pos hlen] at ho
    cases hpw : writePage (c.take PAGE_SIZE) fields with
    | none =>
      rw [hpw] at ho
      exact absurd ho (by simp)
    | some p =>
      rw [hpw] at ho
      have ho2 : some (p ++ c.drop PAGE_SIZE) = some o := ho
      have hpo : p ++ c.drop PAGE_SIZE = o := by injection ho2
      have hplen : p.length = PAGE_SIZE := by
        rw [length_writePage hpw]
        simp [List.length_take]
        omega
      rw [← hpo]
      show (p ++ c.drop PAGE_SIZE).take PAGE_SIZE = p
      rw [← hplen, List.take_left]

theorem c8_insert_file_witness :
    PAGE_SIZE ≤ (List.replicate 9000 (0 : Nat)).length ∧
    (insertData (some (List.replicate 9000 (0 : Nat))) [DataField.Integer 3]
      = (match writePage ((List.replicate 9000 (0 : Nat)).take PAGE_SIZE) [DataField.Integer 3] with
         | none => none
         | some p => some (p ++ (List.replicate 9000 (0 : Nat)).drop PAGE_SIZE)) ∧
     insertData none [DataField.Integer 3] = writePage createPage [DataField.Integer 3] ∧
     (∀ o, insertData (some (List.replicate 9000 (0 : Nat))) [DataField.Integer 3] = some o →
       o.take PAGE_SIZE
         = (writePage ((List.replicate 9000 (0 : Nat)).take PAGE_SIZE) [DataField.Integer 3]).getD [])) :=
  ⟨by rw [List.length_replicate]; norm_num [PAGE_SIZE],
    c8_insert_file (List.replicate 9000 0) [DataField.Integer 3]
      (by rw [List.length_replicate]; norm_num [PAGE_SIZE])⟩

/-- Truncation behaviour of the tuple codec on an oversized text field:
the length prefix is the true length mod 2^16, the encoded row decodes to
a truncated text (or not at all), and no tuple is ever stored —
`Page::write` never returns at all, and even the lock-free
`Storage::write_page` panics on the `copy_from_slice` length mismatch
between the truncated `data_len` and the row's true size. -/
theorem writeTruncation_spec (s : List Nat) (h : 65536 ≤ s.length) :
    byteSlice (encodeRow [DataField.Text s]) 4 2 = le16 (s.length % 65536) ∧
    decodeRowAt (encodeRow [DataField.Text s]) 0 ≠ some [DataField.Text s] ∧
    pageWrite (pageNew 8192 none) [DataField.Text s] = none ∧
    writePage (pageNew 8192 none) [DataField.Text s] = none := by
  have hm : s.length % 65536 < 65536 := Nat.mod_lt _ (by norm_num)
  have hmle : s.length % 65536 ≤ s.length := Nat.mod_le _ _
  have henc : encodeRow [DataField.Text s] = 1 :: 0 :: 2 :: 0 :: (le16 s.length ++ s) := by
    show le16 [DataField.Text s].length ++ tagBytes [DataField.Text s]
      ++ payloadBytes [DataField.Text s] = _
    rw [show [DataField.Text s].length = 1 from rfl,
      show tagBytes [DataField.Text s] = le16 2 ++ ([] : List Nat) from rfl,
      show payloadBytes [DataField.Text s] = (le16 s.length ++ s) ++ ([] : List Nat) from rfl,
      List.append_nil, List.append_nil]
    rfl
  have hlenB : (encodeRow [DataField.Text s]).length = 6 + s.length := by
    rw [henc]
    simp only [List.length_cons, List.length_append, length_le16]
    omega
  have hB0 : (encodeRow [DataField.Text s]).getD 0 0 = 1 := by rw [henc]; rfl
  have hB1 : (encodeRow [DataField.Text s]).getD 1 0 = 0 := by rw [henc]; rfl
  have hB4 : (encodeRow [DataField.Text s]).getD 4 0 = s.length % 256 := by
    rw [henc]
    rfl
  have hB5 : (encodeRow [DataField.Text s]).getD 5 0 = s.length / 256 % 256 := by
    rw [henc]
    rfl
  have hrt2 : readTags (encodeRow [DataField.Text s]) 2 1 = some ([2], 4) := by
    simpa [DataField.to_int] using
      readTags_of [DataField.Text s] 2 (byteSlice_encodeRow_tags [DataField.Text s])
        (by rw [hlenB]; simp only [List.length_cons, List.length_nil]; omega)
  have hslice6 : byteSlice (encodeRow [DataField.Text s]) 6 (s.length % 65536)
      = s.take (s.length % 65536) := by
    rw [henc, byteSlice,
      show ((1:Nat) :: 0 :: 2 :: 0 :: (le16 s.length ++ s)).drop 6
        = (le16 s.length ++ s).drop 2 from rfl,
      drop_two_append (length_le16 _)]
  have hdf : decodeFields (encodeRow [DataField.Text s]) [2] 4
      = (if isValidUTF8 (s.take (s.length % 65536)) = true
         then some ([DataField.Text (s.take (s.length % 65536))], 6 + s.length % 65536)
         else none) := by
    simp only [decodeFields]
    rw [if_pos trivial]
    rw [if_pos (show 4 + 2 ≤ (encodeRow [DataField.Text s]).length by rw [hlenB]; omega)]
    rw [show (4:Nat) + 1 = 5 from rfl, hB4, hB5]
    rw [show d16 (s.length % 256) (s.length / 256 % 256) = s.length % 65536 from by
      simp only [d16]
      omega]
    rw [if_pos (show 4 + 2 + s.length % 65536 ≤ (encodeRow [DataField.Text s]).length by
      rw [hlenB]
      omega)]
    rw [show (4:Nat) + 2 = 6 from rfl, hslice6]
    cases hv : isValidUTF8 (s.take (s.length % 65536)) with
    | false =>
      rw [if_neg (show ¬ (2:Nat) = 1 by norm_num)]
      rw [if_pos (show 6 ≤ (encodeRow [DataField.Text s]).length by rw [hlenB]; omega)]
    | true =>
      rw [if_neg (show ¬ (2:Nat) = 1 by norm_num)]
      rw [if_pos (show 6 ≤ (encodeRow [DataField.Text s]).length by rw [hlenB]; omega)]
  have hdec : decodeRowAt (encodeRow [DataField.Text s]) 0
      = (if isValidUTF8 (s.take (s.length % 65536)) = true
         then some [DataField.Text (s.take (s.length % 65536))] else none) := by
    rw [decodeRowAt, if_pos (by rw [hlenB]; omega)]
    rw [show (0:Nat) + 1 = 1 from rfl, show (0:Nat) + 2 = 2 from rfl]
    rw [hB0, hB1, show d16 1 0 = 1 from rfl, hrt2]
    show (match decodeFields (encodeRow [DataField.Text s]) [2] 4 with
      | none => none
      | some (fs, _) => some fs)
      = (if isValidUTF8 (s.take (s.length % 65536)) = true
         then some [DataField.Text (s.take (s.length % 65536))] else none)
    rw [hdf]
    cases hv : isValidUTF8 (s.take (s.length % 65536)) with
    | false =>
      rw [if_neg (show ¬ (false = true) by simp)]
      rw [if_neg (show ¬ (false = true) by simp)]
    | true =>
      rw [if_pos (show (true = true) from rfl)]
      rw [if_pos (show (true = true) from rfl)]
  have hrow : rowLen [DataField.Text s] = 6 + s.length % 65536 := by
    simp [rowLen, fieldsLen, fieldLen]
    omega
  refine ⟨?_, ?_, rfl, ?_⟩
  · rw [henc, byteSlice,
      show ((1:Nat) :: 0 :: 2 :: 0 :: (le16 s.length ++ s)).drop 4
        = le16 s.length ++ s from rfl,
      take_append_of_le (by rw [length_le16]),
      List.take_of_length_le (by rw [length_le16]), le16_mod]
  · rw [hdec]
    cases hv : isValidUTF8 (s.take (s.length % 65536)) with
    | false =>
      rw [if_neg (show ¬ (false = true) by simp)]
      simp
    | true =>
      rw [if_pos (show (true = true) from rfl)]
      intro heq
      have h1 : [DataField.Text (s.take (s.length % 65536))] = [DataField.Text s] := by
        injection heq
      have h2 : DataField.Text (s.take (s.length % 65536)) = DataField.Text s := by
        injection h1
      have h3 : s.take (s.length % 65536) = s := by
        injection h2
      have h4 := congrArg List.length h3
      rw [List.length_take] at h4
      omega
  · exact writePage_len_mismatch (by rw [hlenB, hrow]; omega)

/-- Claim C10 counterexample: for a text field of 65536 bytes no tuple is
ever stored, so there is no "stored tuple" that then fails to decode:
`Page::write` deadlocks at the `read_metadata` re-lock before reaching
any buffer copy, and even the lock-free `Storage::write_page` variant of
the algorithm panics (`none`) because the truncated `data_len` (6)
disagrees with the true encoded row length (65542) at the
`copy_from_slice`. -/
theorem c10_nothing_stored :
    pageWrite (pageNew 8192 none) [DataField.Text (List.replicate 65536 97)] = none ∧
    writePage (pageNew 8192 none) [DataField.Text (List.replicate 65536 97)] = none :=
  ⟨rfl, (writeTruncation_spec (List.replicate 65536 97)
    (by rw [List.length_replicate])).2.2.2⟩

/-- Claim C10 (amended): `write()` truncates each text field's byte
length (and the field count) to 16 bits when building the row (page.rs
lines 122-145, which do execute, before the lock): for any text of 65536
or more bytes the encoded length prefix is the true length mod 2^16, and
the encoded row no longer decodes to the written fields.  But no such
tuple is ever stored: `Page::write` deadlocks at the `read_metadata`
re-lock before touching the buffer, and even the lock-free
`Storage::write_page` variant panics on the `copy_from_slice` length
mismatch between the truncated `data_len` and the row's true size. -/
theorem c10_truncated_encoding (s : List Nat) (h : 65536 ≤ s.length) :
    byteSlice (encodeRow [DataField.Text s]) 4 2 = le16 (s.length % 65536) ∧
    decodeRowAt (encodeRow [DataField.Text s]) 0 ≠ some [DataField.Text s] ∧
    pageWrite (pageNew 8192 none) [DataField.Text s] = none ∧
    writePage (pageNew 8192 none) [DataField.Text s] = none :=
  writeTruncation_spec s h

theorem c10_truncated_encoding_witness :
    65536 ≤ (List.replicate 65536 (97 : Nat)).length ∧
    (byteSlice (encodeRow [DataField.Text (List.replicate 65536 97)]) 4 2
      = le16 ((List.replicate 65536 (97 : Nat)).length % 65536) ∧
     decodeRowAt (encodeRow [DataField.Text (List.replicate 65536 97)]) 0
      ≠ some [DataField.Text (List.replicate 65536 97)] ∧
     pageWrite (pageNew 8192 none) [DataField.Text (List.replicate 65536 97)] = none ∧
     writePage (pageNew 8192 none) [DataField.Text (List.replicate 65536 97)] = none) :=
  ⟨by rw [List.length_replicate], c10_truncated_encoding (List.replicate 65536 97)
    (by rw [List.length_replicate])⟩
